import Mathlib

/-!
Shallow embedding of gpm (go Projects manager, `main.go`) in Lean 4.

The repository is a single Go file that walks a workspace directory tree,
detects git repository roots (directories directly containing a `.git`
directory), decomposes each matched path into (source, owner, repo) by
taking the last three path segments, and accumulates the results in a
catalog (`Projects`) with deduplicated source and owner indexes.

Modelling conventions:
  * Go maps used as sets (`map[sourceType]bool`, `map[ownerType]bool`) are
    modelled as lists of keys in insertion order with insert-if-absent;
    Go map iteration order is unspecified, so only order-insensitive facts
    (membership, duplicates, cardinality) are meaningful, and all claims
    are of that kind.
  * The filesystem is modelled as a finite rose tree (`FsNode`/`FsForest`,
    a mutual inductive so that all recursions are structural and
    kernel-computable).  `filepath.Walk`'s pre-order traversal with the
    `SkipDir` pruning signal of `visit` is the pair
    `walkVisit`/`walkCatalog`.
  * Go's panic on out-of-range slice indexing is modelled by `Option`:
    `parsegoRepo` returns `none` exactly when the Go code would index out
    of range.
  * `strings.Split` on the single-character separator `/` is modelled by
    `goSplit` (same semantics: splitting the empty string yields `[""]`,
    and `n` separators yield `n+1` fields).
-/

namespace Gpm

/-- Model of the Go struct `sourceType` (field `source string`). -/
structure sourceType where
  source : String
deriving DecidableEq

/-- Model of `newSource`. -/
def newSource (source : String) : sourceType :=
  { source := source }

/-- Model of `sourcesList`: the `map[sourceType]bool` set is the list of
keys in insertion order. -/
structure sourcesList where
  sources : List sourceType
  maxLength : Nat
deriving DecidableEq

/-- Model of `newSourcesList`. -/
def newSourcesList : sourcesList :=
  { sources := [], maxLength := 0 }

/-- Model of `(*sourcesList).addSource`: insert the key if absent, and
bump `maxLength` when the new name is strictly longer. -/
def sourcesList.addSource (s : sourcesList) (src : sourceType) : sourcesList :=
  { sources := if src ∈ s.sources then s.sources else s.sources ++ [src],
    maxLength := if src.source.length > s.maxLength then src.source.length else s.maxLength }

/-- Model of the Go struct `ownerType` (fields `owner`, `source`). -/
structure ownerType where
  owner : String
  source : String
deriving DecidableEq

/-- Model of `newOwner`. -/
def newOwner (owner source : String) : ownerType :=
  { owner := owner, source := source }

/-- Model of `ownersList`: the `map[ownerType]bool` set is the list of
keys in insertion order. -/
structure ownersList where
  owners : List ownerType
  maxLength : Nat
deriving DecidableEq

/-- Model of `newOwnersList`. -/
def newOwnersList : ownersList :=
  { owners := [], maxLength := 0 }

/-- Model of `(*ownersList).addOwner`: insert the key if absent, and bump
`maxLength` when the new owner name is strictly longer. -/
def ownersList.addOwner (o : ownersList) (ow : ownerType) : ownersList :=
  { owners := if ow ∈ o.owners then o.owners else o.owners ++ [ow],
    maxLength := if ow.owner.length > o.maxLength then ow.owner.length else o.maxLength }

/-- Model of the Go struct `goRepo` (fields `source`, `owner`, `repo`). -/
structure goRepo where
  source : String
  owner : String
  repo : String
deriving DecidableEq

/-- Model of `Projects`: source index, owner index, and the append-only
repo sequence. -/
structure Projects where
  sources : sourcesList
  owners : ownersList
  repos : List goRepo
deriving DecidableEq

/-- Model of `NewProjects`. -/
def NewProjects : Projects :=
  { sources := newSourcesList, owners := newOwnersList, repos := [] }

/-- Model of `(*Projects).AddRepo`: append the repo, then upsert its
source key and its (owner, source) key. -/
def Projects.AddRepo (p : Projects) (repo : goRepo) : Projects :=
  { repos := p.repos ++ [repo],
    sources := p.sources.addSource (newSource repo.source),
    owners := p.owners.addOwner (newOwner repo.owner repo.source) }

/-- Model of `(*Projects).Sources`: project every key of the source index
to its name. -/
def Projects.Sources (p : Projects) : List String :=
  p.sources.sources.map sourceType.source

/-- Model of `(*Projects).Owners`: project every key of the owner index
to its owner name. -/
def Projects.Owners (p : Projects) : List String :=
  p.owners.owners.map ownerType.owner

/-- Model of `filepath.Separator` on the target platform. -/
def filepathSeparator : Char := '/'

/-- Splitting a character list at every occurrence of `sep`, the recursion
behind `goSplit`.  The result is always nonempty. -/
def splitChars (sep : Char) : List Char → List (List Char)
  | [] => [[]]
  | c :: cs =>
    match splitChars sep cs with
    | [] => [[]]
    | p :: ps => if c = sep then [] :: p :: ps else (c :: p) :: ps

/-- Model of Go `strings.Split(s, string(sep))` for a one-character
separator: the empty string yields `[""]`, and `n` separators yield
`n + 1` fields. -/
def goSplit (s : String) (sep : Char) : List String :=
  (splitChars sep s.data).map List.asString

/-- Model of `parsegoRepo`: split the path on the separator and read the
last three segments as (source, owner, repo), in that order.  The Go code
indexes `parts[n-1]`, `parts[n-2]`, `parts[n-3]` without a bounds check
and panics when fewer than 3 segments exist; that error branch is the
`none` result here. -/
def parsegoRepo (path : String) : Option goRepo :=
  let parts := goSplit path filepathSeparator
  if h : 3 ≤ parts.length then
    some { source := parts.get ⟨parts.length - 1, by omega⟩,
           owner := parts.get ⟨parts.length - 2, by omega⟩,
           repo := parts.get ⟨parts.length - 3, by omega⟩ }
  else
    none

mutual
/-- Finite filesystem tree: a named file or a named directory with an
ordered list of children (`FsForest`).  A mutual inductive is used instead
of a nested `List` so that every traversal below is structural and
kernel-computable. -/
inductive FsNode where
  | file (name : String) : FsNode
  | dir (name : String) (children : FsForest) : FsNode
/-- The ordered children of a directory. -/
inductive FsForest where
  | nil : FsForest
  | cons (head : FsNode) (tail : FsForest) : FsForest
end

/-- Name of a filesystem node. -/
def FsNode.name : FsNode → String
  | .file nm => nm
  | .dir nm _ => nm

/-- View of a forest as an ordinary list of nodes. -/
def FsForest.toList : FsForest → List FsNode
  | .nil => []
  | .cons c cs => c :: cs.toList

mutual
/-- Number of nodes of a tree. -/
def FsNode.size : FsNode → Nat
  | .file _ => 1
  | .dir _ cs => 1 + cs.size
/-- Number of nodes of a forest. -/
def FsForest.size : FsForest → Nat
  | .nil => 0
  | .cons c cs => c.size + cs.size
end

/-- Directory-entry lookup by name, as the OS resolves one path segment:
the first child with the given name.  On a real filesystem sibling names
are distinct, so "first" is exact. -/
def findEntry : FsForest → String → Option FsNode
  | .nil, _ => none
  | .cons c cs, s => if c.name = s then some c else findEntry cs s

/-- Path resolution from a forest of top-level entries, as `os.Stat`
resolves a relative path; the empty path resolves to nothing. -/
def lookupPath (fs : FsForest) : List String → Option FsNode
  | [] => none
  | s :: rest =>
    match findEntry fs s, rest with
    | some n, [] => some n
    | some (.dir _ cs), _ :: _ => lookupPath cs rest
    | _, _ => none

/-- Outcome of `os.Stat` on the tree model, keeping the failure modes the
Go code distinguishes apart: `found n` when the path resolves to node
`n`; `enoent` when every resolved leading component is a directory but
some component is missing (`stat` fails with ENOENT, which is what
`os.IsNotExist` matches); `enotdir` when a non-final component resolves
to a regular file (`stat` fails with ENOTDIR, which `os.IsNotExist` does
NOT match). -/
inductive statResult where
  | found (n : FsNode)
  | enoent
  | enotdir

/-- Model of `os.Stat` path resolution from a forest of top-level
entries; the empty path fails with ENOENT, as `stat("")` does. -/
def statPath (fs : FsForest) : List String → statResult
  | [] => .enoent
  | s :: rest =>
    match findEntry fs s, rest with
    | some n, [] => .found n
    | some (.dir _ cs), _ :: _ => statPath cs rest
    | some (.file _), _ :: _ => .enotdir
    | none, _ => .enoent

/-- Model of `isDir`: `os.Stat` resolves the path; only an error matched
by `os.IsNotExist` (ENOENT) is reported as `false`; on any other `stat`
error (ENOTDIR here) `fileInfo` is nil and `fileInfo.IsDir()` is a nil
dereference — the Go function panics, modelled as `none`; otherwise the
answer is whether the node is a directory. -/
def isDir (fs : FsForest) (p : List String) : Option Bool :=
  match statPath fs p with
  | .found (.dir _ _) => some true
  | .found (.file _) => some false
  | .enoent => some false
  | .enotdir => none

/-- Model of `isGitRoot`: the path joined with `.git` is a directory
(`none` propagates the panic of `isDir`). -/
def isGitRoot (fs : FsForest) (p : List String) : Option Bool :=
  isDir fs (p ++ [".git"])

/-- Model of `isGogoRepo`: the path is a directory and its `.git` child
is a directory, with Go's short-circuit `&&` (the second `stat` only
runs when the first returned true) and `none` propagating a panic. -/
def isGogoRepo (fs : FsForest) (p : List String) : Option Bool :=
  match isDir fs p with
  | some true => isGitRoot fs p
  | some false => some false
  | none => none

/-- The repository-root check of `visit`, evaluated directly on a
directory's children: the entry named `.git` exists and is a directory.
For a directory node that exists at path `p`, `isGogoRepo fs p` is
`some` of exactly this check and cannot reach the panic branch: the
first `stat` finds the directory, and the second one, of `p ++ [".git"]`,
resolves its whole strict prefix `p` to that directory, so it can only
succeed or fail with ENOENT. -/
def hasGitDir (cs : FsForest) : Bool :=
  match findEntry cs ".git" with
  | some (.dir _ _) => true
  | _ => false

/-- Go path string of a segment list. -/
def pathString (p : List String) : String :=
  String.intercalate (String.singleton filepathSeparator) p

mutual
/-- Paths visited by `filepath.Walk` with the `visit` callback, pre-order:
a node at `base ++ [name]` is always visited; a directory that passes the
repository-root check returns `filepath.SkipDir`, so none of its
descendants are visited; otherwise its children are walked in order. -/
def walkVisit (base : List String) : FsNode → List (List String)
  | .file nm => [base ++ [nm]]
  | .dir nm cs =>
      if hasGitDir cs then [base ++ [nm]]
      else (base ++ [nm]) :: walkVisitForest (base ++ [nm]) cs
/-- Visited paths of a forest of siblings, in order. -/
def walkVisitForest (base : List String) : FsForest → List (List String)
  | .nil => []
  | .cons c cs => walkVisit base c ++ walkVisitForest base cs
end

mutual
/-- Catalog accumulated by the walk: `visit` calls `parsegoRepo` on every
directory that passes the repository-root check and prunes there.  The
`none` result propagates the out-of-range panic of `parsegoRepo`. -/
def walkCatalog (base : List String) : FsNode → Projects → Option Projects
  | .file _, p => some p
  | .dir nm cs, p =>
      if hasGitDir cs then (parsegoRepo (pathString (base ++ [nm]))).map p.AddRepo
      else walkCatalogForest (base ++ [nm]) cs p
/-- Catalog accumulation over a forest of siblings, left to right. -/
def walkCatalogForest (base : List String) : FsForest → Projects → Option Projects
  | .nil, p => some p
  | .cons c cs, p =>
      match walkCatalog base c p with
      | some p1 => walkCatalogForest base cs p1
      | none => none
end

/-- Bool-valued distinctness of a list of names. -/
def namesNodup : List String → Bool
  | [] => true
  | s :: rest => decide (s ∉ rest) && namesNodup rest

/-- Names of the entries of a forest. -/
def FsForest.names : FsForest → List String
  | .nil => []
  | .cons c cs => c.name :: cs.names

mutual
/-- Well-formedness of a tree as a filesystem: sibling names are distinct
at every level (always true of a real directory tree). -/
def FsNode.wf : FsNode → Bool
  | .file _ => true
  | .dir _ cs => namesNodup cs.names && cs.wf
/-- Well-formedness of every tree of a forest. -/
def FsForest.wf : FsForest → Bool
  | .nil => true
  | .cons c cs => c.wf && cs.wf
end

/-- A forest from a list of nodes, for writing concrete trees. -/
def FsForest.ofList : List FsNode → FsForest
  | [] => .nil
  | c :: cs => .cons c (ofList cs)

/-- The workspace tree of the end-to-end scenario of the spec:
`root/github.com/alice/proj1` (with a `.git` marker and a nested marked
repo `vendor/lib`) and `root/github.com/bob/proj2` (with a marker). -/
def scenarioFs : FsNode :=
  .dir "root" (FsForest.ofList [
    .dir "github.com" (FsForest.ofList [
      .dir "alice" (FsForest.ofList [
        .dir "proj1" (FsForest.ofList [
          .dir ".git" .nil,
          .dir "vendor" (FsForest.ofList [
            .dir "lib" (FsForest.ofList [.dir ".git" .nil])])])]),
      .dir "bob" (FsForest.ofList [
        .dir "proj2" (FsForest.ofList [.dir ".git" .nil])])])])

/-- The invariant of claim C5: every catalogued repo has its source name
in the source index and its (owner, source) pair in the owner index. -/
def CatalogInv (p : Projects) : Prop :=
  ∀ r ∈ p.repos,
    newSource r.source ∈ p.sources.sources ∧
    newOwner r.owner r.source ∈ p.owners.owners

instance (p : Projects) : Decidable (CatalogInv p) := by
  unfold CatalogInv
  infer_instance

/-! Lemmas about the catalog. -/

theorem addSource_maxLength (s : sourcesList) (x : sourceType) :
    (s.addSource x).maxLength = Nat.max s.maxLength x.source.length := by
  simp only [sourcesList.addSource, Nat.max_def]
  split <;> split <;> omega

theorem addOwner_maxLength (o : ownersList) (x : ownerType) :
    (o.addOwner x).maxLength = Nat.max o.maxLength x.owner.length := by
  simp only [ownersList.addOwner, Nat.max_def]
  split <;> split <;> omega

theorem mem_addSource_self (s : sourcesList) (x : sourceType) :
    x ∈ (s.addSource x).sources := by
  unfold sourcesList.addSource
  by_cases h : x ∈ s.sources <;> simp [h]

theorem mem_addSource_mono (s : sourcesList) (x y : sourceType) (h : y ∈ s.sources) :
    y ∈ (s.addSource x).sources := by
  unfold sourcesList.addSource
  by_cases hx : x ∈ s.sources <;> simp [hx, h]

theorem addSource_sources_of_mem (s : sourcesList) (x : sourceType) (h : x ∈ s.sources) :
    (s.addSource x).sources = s.sources := by
  simp [sourcesList.addSource, h]

theorem addSource_nodup (s : sourcesList) (x : sourceType) (h : s.sources.Nodup) :
    (s.addSource x).sources.Nodup := by
  unfold sourcesList.addSource
  by_cases hx : x ∈ s.sources <;> simp [hx, h, List.nodup_append, List.disjoint_singleton]

theorem mem_addOwner_self (o : ownersList) (x : ownerType) :
    x ∈ (o.addOwner x).owners := by
  unfold ownersList.addOwner
  by_cases h : x ∈ o.owners <;> simp [h]

theorem mem_addOwner_mono (o : ownersList) (x y : ownerType) (h : y ∈ o.owners) :
    y ∈ (o.addOwner x).owners := by
  unfold ownersList.addOwner
  by_cases hx : x ∈ o.owners <;> simp [hx, h]

theorem addOwner_owners_of_mem (o : ownersList) (x : ownerType) (h : x ∈ o.owners) :
    (o.addOwner x).owners = o.owners := by
  simp [ownersList.addOwner, h]

theorem addOwner_nodup (o : ownersList) (x : ownerType) (h : o.owners.Nodup) :
    (o.addOwner x).owners.Nodup := by
  unfold ownersList.addOwner
  by_cases hx : x ∈ o.owners <;> simp [hx, h, List.nodup_append, List.disjoint_singleton]

theorem catalogInv_addRepo (p : Projects) (r : goRepo) (h : CatalogInv p) :
    CatalogInv (p.AddRepo r) := by
  intro r' hr'
  simp only [Projects.AddRepo, List.mem_append, List.mem_singleton] at hr'
  rcases hr' with hr' | rfl
  · obtain ⟨h1, h2⟩ := h r' hr'
    exact ⟨mem_addSource_mono _ _ _ h1, mem_addOwner_mono _ _ _ h2⟩
  · exact ⟨mem_addSource_self _ _, mem_addOwner_self _ _⟩

theorem catalogInv_foldl (rs : List goRepo) :
    ∀ p : Projects, CatalogInv p → CatalogInv (rs.foldl Projects.AddRepo p) := by
  induction rs with
  | nil => intro p h; exact h
  | cons r rs ih =>
      intro p h
      exact ih _ (catalogInv_addRepo p r h)

theorem sources_nodup_foldl (rs : List goRepo) :
    ∀ p : Projects, p.sources.sources.Nodup → p.owners.owners.Nodup →
      (rs.foldl Projects.AddRepo p).sources.sources.Nodup ∧
      (rs.foldl Projects.AddRepo p).owners.owners.Nodup := by
  induction rs with
  | nil => intro p h1 h2; exact ⟨h1, h2⟩
  | cons r rs ih =>
      intro p h1 h2
      exact ih _ (addSource_nodup _ _ h1) (addOwner_nodup _ _ h2)

theorem sourceType_source_injective : Function.Injective sourceType.source := by
  intro a b h
  cases a; cases b; simpa using h

theorem foldl_addSource_maxLength (l : List String) :
    ∀ s : sourcesList,
      ((l.map newSource).foldl sourcesList.addSource s).maxLength =
        (l.map String.length).foldl Nat.max s.maxLength := by
  induction l with
  | nil => intro s; rfl
  | cons a l ih =>
      intro s
      simp only [List.map_cons, List.foldl_cons]
      rw [ih]
      congr 1
      rw [addSource_maxLength]
      rfl

theorem foldl_addOwner_maxLength (l : List (String × String)) :
    ∀ o : ownersList,
      ((l.map fun pr => newOwner pr.1 pr.2).foldl ownersList.addOwner o).maxLength =
        (l.map fun pr => pr.1.length).foldl Nat.max o.maxLength := by
  induction l with
  | nil => intro o; rfl
  | cons a l ih =>
      intro o
      simp only [List.map_cons, List.foldl_cons]
      rw [ih]
      congr 1
      rw [addOwner_maxLength]
      rfl

/-! Lemmas about the walker. -/

theorem fsMutInd {P : FsNode → Prop} {Q : FsForest → Prop}
    (hfile : ∀ nm, P (.file nm))
    (hdir : ∀ nm cs, Q cs → P (.dir nm cs))
    (hnil : Q .nil)
    (hcons : ∀ c cs, P c → Q cs → Q (.cons c cs)) :
    (∀ n, P n) ∧ (∀ cs, Q cs) :=
  ⟨fun n => FsNode.rec hfile hdir hnil hcons n,
   fun cs => FsForest.rec hfile hdir hnil hcons cs⟩

theorem walkVisit_file (base : List String) (nm : String) :
    walkVisit base (.file nm) = [base ++ [nm]] := by
  simp [walkVisit]

theorem walkVisit_dir_pos (base : List String) (nm : String) (cs : FsForest)
    (h : hasGitDir cs = true) :
    walkVisit base (.dir nm cs) = [base ++ [nm]] := by
  simp [walkVisit, h]

theorem walkVisit_dir_neg (base : List String) (nm : String) (cs : FsForest)
    (h : hasGitDir cs = false) :
    walkVisit base (.dir nm cs) = (base ++ [nm]) :: walkVisitForest (base ++ [nm]) cs := by
  simp [walkVisit, h]

theorem walkCatalog_dir_pos (base : List String) (nm : String) (cs : FsForest) (p : Projects)
    (h : hasGitDir cs = true) :
    walkCatalog base (.dir nm cs) p = (parsegoRepo (pathString (base ++ [nm]))).map p.AddRepo := by
  simp [walkCatalog, h]

theorem walkCatalog_dir_neg (base : List String) (nm : String) (cs : FsForest) (p : Projects)
    (h : hasGitDir cs = false) :
    walkCatalog base (.dir nm cs) p = walkCatalogForest (base ++ [nm]) cs p := by
  simp [walkCatalog, h]

theorem walkVisit_shape :
    (∀ n : FsNode, ∀ base q, q ∈ walkVisit base n → ∃ rest, q = base ++ n.name :: rest) ∧
    (∀ cs : FsForest, ∀ base q, q ∈ walkVisitForest base cs →
      ∃ c ∈ cs.toList, ∃ rest, q = base ++ c.name :: rest) := by
  refine fsMutInd ?_ ?_ ?_ ?_
  · intro nm base q hq
    rw [walkVisit_file, List.mem_singleton] at hq
    exact ⟨[], by simp [hq, FsNode.name]⟩
  · intro nm cs hQ base q hq
    cases h : hasGitDir cs
    · rw [walkVisit_dir_neg _ _ _ h, List.mem_cons] at hq
      rcases hq with rfl | hq
      · exact ⟨[], by simp [FsNode.name]⟩
      · obtain ⟨c, _, rest, rfl⟩ := hQ (base ++ [nm]) q hq
        exact ⟨c.name :: rest, by simp [FsNode.name]⟩
    · rw [walkVisit_dir_pos _ _ _ h, List.mem_singleton] at hq
      exact ⟨[], by simp [hq, FsNode.name]⟩
  · intro base q hq
    simp [walkVisitForest] at hq
  · intro c cs hP hQ base q hq
    simp only [walkVisitForest, List.mem_append] at hq
    rcases hq with hq | hq
    · obtain ⟨rest, rfl⟩ := hP base q hq
      exact ⟨c, by simp [FsForest.toList], rest, rfl⟩
    · obtain ⟨c', hc', rest, rfl⟩ := hQ base q hq
      exact ⟨c', by simp [FsForest.toList, hc'], rest, rfl⟩

theorem self_mem_walkVisit (base : List String) (n : FsNode) :
    base ++ [n.name] ∈ walkVisit base n := by
  cases n with
  | file nm => simp [walkVisit_file, FsNode.name]
  | dir nm cs =>
      cases h : hasGitDir cs
      · simp [walkVisit_dir_neg _ _ _ h, FsNode.name]
      · simp [walkVisit_dir_pos _ _ _ h, FsNode.name]

theorem mem_walkVisitForest_of_mem :
    ∀ (cs : FsForest) (base : List String) (c : FsNode), c ∈ cs.toList →
      ∀ q ∈ walkVisit base c, q ∈ walkVisitForest base cs
  | .nil, _, c, hc => by simp [FsForest.toList] at hc
  | .cons d ds, base, c, hc => by
      intro q hq
      simp only [FsForest.toList, List.mem_cons] at hc
      simp only [walkVisitForest, List.mem_append]
      rcases hc with rfl | hc
      · exact Or.inl hq
      · exact Or.inr (mem_walkVisitForest_of_mem ds base c hc q hq)

theorem name_mem_names :
    ∀ (cs : FsForest) (c : FsNode), c ∈ cs.toList → c.name ∈ cs.names
  | .nil, c, hc => by simp [FsForest.toList] at hc
  | .cons d ds, c, hc => by
      simp only [FsForest.toList, List.mem_cons] at hc
      simp only [FsForest.names, List.mem_cons]
      rcases hc with rfl | hc
      · exact Or.inl rfl
      · exact Or.inr (name_mem_names ds c hc)

theorem namesNodup_eq_true_iff : ∀ l : List String, namesNodup l = true ↔ l.Nodup
  | [] => by simp [namesNodup]
  | s :: rest => by
      simp [namesNodup, namesNodup_eq_true_iff rest]

theorem walkVisit_length :
    (∀ n : FsNode, ∀ base, (walkVisit base n).length ≤ n.size) ∧
    (∀ cs : FsForest, ∀ base, (walkVisitForest base cs).length ≤ cs.size) := by
  refine fsMutInd ?_ ?_ ?_ ?_
  · intro nm base
    simp [walkVisit_file, FsNode.size]
  · intro nm cs hQ base
    cases h : hasGitDir cs
    · rw [walkVisit_dir_neg _ _ _ h]
      simp only [List.length_cons, FsNode.size]
      have := hQ (base ++ [nm])
      omega
    · rw [walkVisit_dir_pos _ _ _ h]
      simp only [List.length_singleton, FsNode.size]
      omega
  · intro base
    simp [walkVisitForest, FsForest.size]
  · intro c cs hP hQ base
    simp only [walkVisitForest, List.length_append, FsForest.size]
    have h1 := hP base
    have h2 := hQ base
    omega

theorem walkVisit_nodup :
    (∀ n : FsNode, ∀ base, n.wf = true → (walkVisit base n).Nodup) ∧
    (∀ cs : FsForest, ∀ base, cs.wf = true → namesNodup cs.names = true →
      (walkVisitForest base cs).Nodup) := by
  refine fsMutInd ?_ ?_ ?_ ?_
  · intro nm base _
    simp [walkVisit_file]
  · intro nm cs hQ base hwf
    simp only [FsNode.wf, Bool.and_eq_true] at hwf
    cases h : hasGitDir cs
    · rw [walkVisit_dir_neg _ _ _ h, List.nodup_cons]
      refine ⟨fun hmem => ?_, hQ (base ++ [nm]) hwf.2 hwf.1⟩
      obtain ⟨c, _, rest, heq⟩ := walkVisit_shape.2 cs (base ++ [nm]) _ hmem
      have := congrArg List.length heq
      simp at this
    · rw [walkVisit_dir_pos _ _ _ h]
      simp
  · intro base _ _
    simp [walkVisitForest]
  · intro c cs hP hQ base hwf hnames
    simp only [FsForest.wf, Bool.and_eq_true] at hwf
    simp only [FsForest.names, namesNodup, Bool.and_eq_true, decide_eq_true_eq] at hnames
    simp only [walkVisitForest, List.nodup_append]
    refine ⟨hP base hwf.1, hQ base hwf.2 hnames.2, fun q hq hq' => ?_⟩
    obtain ⟨r1, heq1⟩ := walkVisit_shape.1 c base q hq
    obtain ⟨c', hc', r2, heq2⟩ := walkVisit_shape.2 cs base q hq'
    rw [heq1] at heq2
    have hname : c.name = c'.name := (List.cons.injEq _ _ _ _).mp (List.append_cancel_left heq2) |>.1
    exact hnames.1 (hname ▸ name_mem_names cs c' hc')

theorem lookupPath_cons (fs : FsForest) (a : String) (L : List String) :
    lookupPath fs (a :: L) =
      match findEntry fs a, L with
      | some n, [] => some n
      | some (.dir _ cs), _ :: _ => lookupPath cs L
      | _, _ => none := by
  simp [lookupPath]

theorem lookupPath_single (fs : FsForest) (s : String) :
    lookupPath fs [s] = findEntry fs s := by
  rw [lookupPath_cons]
  cases hfe : findEntry fs s with
  | none => rfl
  | some n => cases n <;> rfl

theorem lookupPath_append_single :
    ∀ (p : List String) (fs : FsForest) (s : String), p ≠ [] →
      lookupPath fs (p ++ [s]) =
        match lookupPath fs p with
        | some (.dir _ cs) => findEntry cs s
        | _ => none
  | [], _, _, h => absurd rfl h
  | [a], fs, s, _ => by
      rw [show ([a] : List String) ++ [s] = [a, s] from rfl, lookupPath_cons fs a [s],
        lookupPath_single fs a]
      cases hfe : findEntry fs a with
      | none => rfl
      | some n => cases n with
        | file nm => rfl
        | dir nm cs => exact lookupPath_single cs s
  | a :: b :: rest, fs, s, _ => by
      rw [List.cons_append, lookupPath_cons fs a (b :: rest ++ [s]), lookupPath_cons fs a (b :: rest)]
      cases hfe : findEntry fs a with
      | none => rfl
      | some n => cases n with
        | file nm => rfl
        | dir nm cs =>
            have ih := lookupPath_append_single (b :: rest) cs s (by simp)
            rw [List.cons_append] at ih
            exact ih

/-! Claim theorems about the catalog and the path decomposition. -/

/-- C2: for every path whose split on the separator has n ≥ 3 segments,
`parsegoRepo` yields the record with source = segment n-1,
owner = segment n-2, repo = segment n-3, each segment taken verbatim and
with no validation of its contents (the theorem holds for arbitrary
strings). -/
theorem parsegoRepo_last_three_segments (path : String)
    (h : 3 ≤ (goSplit path filepathSeparator).length) :
    parsegoRepo path = some
      { source := (goSplit path filepathSeparator).getD
          ((goSplit path filepathSeparator).length - 1) "",
        owner := (goSplit path filepathSeparator).getD
          ((goSplit path filepathSeparator).length - 2) "",
        repo := (goSplit path filepathSeparator).getD
          ((goSplit path filepathSeparator).length - 3) "" } := by
  simp only [parsegoRepo]
  rw [dif_pos h]
  congr 1
  rw [List.getD_eq_getElem, List.getD_eq_getElem, List.getD_eq_getElem] <;> rfl

/-- Witness for C2 at the concrete path `a/b/c`. -/
theorem parsegoRepo_last_three_segments_witness :
    parsegoRepo "a/b/c" = some { source := "c", owner := "b", repo := "a" } :=
  (parsegoRepo_last_three_segments "a/b/c" (by decide)).trans (by decide)

/-- C3, counterexample: after adding the same owner name under two
different sources, `Owners()` contains the string `alice` twice, so the
claim that `Owners()` never contains the same string twice (two owners
with the same name under different sources collapsing to one string)
fails on the code. -/
theorem owners_duplicate_counterexample :
    ((NewProjects.AddRepo { source := "github.com", owner := "alice", repo := "r1" }).AddRepo
        { source := "gitlab.com", owner := "alice", repo := "r2" }).Owners =
      ["alice", "alice"] ∧
    ¬ ((NewProjects.AddRepo { source := "github.com", owner := "alice", repo := "r1" }).AddRepo
        { source := "gitlab.com", owner := "alice", repo := "r2" }).Owners.Nodup := by
  constructor
  · decide
  · decide

/-- C3, amended: for every sequence of `AddRepo` calls, `Sources()` never
contains the same string twice, and the owner index never contains the
same (owner, source) key twice; `Owners()` projects each distinct key to
its owner name, so the same owner name under different sources appears
once per source (it is not collapsed to one string). -/
theorem sources_nodup_and_owner_index_nodup (rs : List goRepo) :
    (rs.foldl Projects.AddRepo NewProjects).Sources.Nodup ∧
    (rs.foldl Projects.AddRepo NewProjects).owners.owners.Nodup := by
  obtain ⟨h1, h2⟩ := sources_nodup_foldl rs NewProjects (by decide) (by decide)
  exact ⟨List.Nodup.map sourceType_source_injective h1, h2⟩

/-- C4: adding the same repository value twice from any catalog state
leaves the cardinality of `Sources()` and of the owner index unchanged by
the second call, while the repo sequence grows by exactly one element on
each of the two calls. -/
theorem addRepo_twice_cardinalities (p : Projects) (r : goRepo) :
    ((p.AddRepo r).AddRepo r).Sources.length = (p.AddRepo r).Sources.length ∧
    ((p.AddRepo r).AddRepo r).owners.owners.length = (p.AddRepo r).owners.owners.length ∧
    (p.AddRepo r).repos.length = p.repos.length + 1 ∧
    ((p.AddRepo r).AddRepo r).repos.length = (p.AddRepo r).repos.length + 1 := by
  refine ⟨?_, ?_, by simp [Projects.AddRepo], by simp [Projects.AddRepo]⟩
  · simp only [Projects.Sources, Projects.AddRepo, List.length_map]
    rw [addSource_sources_of_mem _ _ (mem_addSource_self _ _)]
  · simp only [Projects.AddRepo]
    rw [addOwner_owners_of_mem _ _ (mem_addOwner_self _ _)]

/-- C5: after any sequence of `AddRepo` calls starting from a fresh
catalog, every catalogued repo has its source name in the source index
and its (owner, source) pair in the owner index, and this invariant is
preserved by every `AddRepo` call from any state satisfying it. -/
theorem addRepo_index_invariant :
    (∀ rs : List goRepo, CatalogInv (rs.foldl Projects.AddRepo NewProjects)) ∧
    (∀ (p : Projects) (r : goRepo), CatalogInv p → CatalogInv (p.AddRepo r)) :=
  ⟨fun rs => catalogInv_foldl rs NewProjects (by decide), catalogInv_addRepo⟩

/-- Witness for C5 at a concrete catalog and repo. -/
theorem addRepo_index_invariant_witness :
    CatalogInv (NewProjects.AddRepo { source := "github.com", owner := "cizixs", repo := "gpm" }) :=
  addRepo_index_invariant.2 NewProjects
    { source := "github.com", owner := "cizixs", repo := "gpm" } (by decide)

/-- C7: decomposition succeeds (all index accesses in bounds) for every
path whose split has at least 3 segments, and reaches the out-of-range
error branch on the concrete path `ab`, whose split has fewer than 3
segments. -/
theorem parsegoRepo_bounds :
    (∀ path : String, 3 ≤ (goSplit path filepathSeparator).length →
      (parsegoRepo path).isSome = true) ∧
    ((goSplit "ab" filepathSeparator).length < 3 ∧ parsegoRepo "ab" = none) := by
  refine ⟨fun path h => ?_, by decide, by decide⟩
  simp [parsegoRepo, h]

/-- Witness for C7 at the concrete path `a/b/c`. -/
theorem parsegoRepo_bounds_witness : (parsegoRepo "a/b/c").isSome = true :=
  parsegoRepo_bounds.1 "a/b/c" (by decide)

/-- C10: after any sequence of `addSource` calls on a fresh `sourcesList`,
`maxLength` is the maximum length of any source name ever passed (0 when
none were added); likewise for `ownersList.maxLength` over the owner
names passed to `addOwner`.  The fold equation covers duplicate
insertions: the length of a duplicate still enters the maximum. -/
theorem maxLength_tracks_maximum :
    (∀ l : List String,
      ((l.map newSource).foldl sourcesList.addSource newSourcesList).maxLength =
        (l.map String.length).foldl Nat.max 0) ∧
    (∀ l : List (String × String),
      ((l.map fun pr => newOwner pr.1 pr.2).foldl ownersList.addOwner newOwnersList).maxLength =
        (l.map fun pr => pr.1.length).foldl Nat.max 0) :=
  ⟨fun l => foldl_addSource_maxLength l newSourcesList,
   fun l => foldl_addOwner_maxLength l newOwnersList⟩

/-- C6: for every directory D (a node `dir nm cs` walked at any `base`):
if the repository-root check holds, D itself is visited, it is classified
and added to the catalog (the walk of D yields exactly the catalog with
D's record appended), and nothing below D is visited — every visited path
of D's walk is D's own path; if the check fails, D is visited and the
traversal continues into every child of D.  Every directory of any tree
is processed by exactly such a recursive call of the walker. -/
theorem walker_prune_and_descend (base : List String) (nm : String) (cs : FsForest)
    (p : Projects) :
    (hasGitDir cs = true →
      (base ++ [nm]) ∈ walkVisit base (.dir nm cs) ∧
      (∀ q ∈ walkVisit base (.dir nm cs), q = base ++ [nm]) ∧
      (∀ r, parsegoRepo (pathString (base ++ [nm])) = some r →
        walkCatalog base (.dir nm cs) p = some (p.AddRepo r))) ∧
    (hasGitDir cs = false →
      (base ++ [nm]) ∈ walkVisit base (.dir nm cs) ∧
      (∀ c ∈ cs.toList, base ++ [nm] ++ [c.name] ∈ walkVisit base (.dir nm cs))) := by
  constructor
  · intro h
    refine ⟨by simp [walkVisit_dir_pos _ _ _ h], by simp [walkVisit_dir_pos _ _ _ h],
      fun r hr => ?_⟩
    rw [walkCatalog_dir_pos _ _ _ _ h, hr]
    rfl
  · intro h
    refine ⟨by simp [walkVisit_dir_neg _ _ _ h], fun c hc => ?_⟩
    rw [walkVisit_dir_neg _ _ _ h]
    exact List.mem_cons_of_mem _
      (mem_walkVisitForest_of_mem cs (base ++ [nm]) c hc _ (self_mem_walkVisit (base ++ [nm]) c))

/-- Witness for C6: a marked directory walked at a concrete base is
pruned to a single visit and its record is added to the catalog. -/
theorem walker_prune_and_descend_witness :
    walkCatalog ["a", "b"] (.dir "proj" (.cons (.dir ".git" .nil) .nil)) NewProjects =
      some (NewProjects.AddRepo { source := "proj", owner := "b", repo := "a" }) :=
  ((walker_prune_and_descend ["a", "b"] "proj" (.cons (.dir ".git" .nil) .nil)
      NewProjects).1 (by decide)).2.2
    { source := "proj", owner := "b", repo := "a" } (by decide)

/-- C8: evaluation of the embedded code at the failing input.  Over the
one-entry filesystem holding only a regular file `f`, the path `f/x`
does not exist (`lookupPath` finds nothing; `stat` fails with ENOTDIR
because the prefix component `f` is a file, an error `os.IsNotExist`
does not match), and `isGogoRepo` reaches the panic branch (`none`:
`fileInfo.IsDir()` on a nil `fileInfo`) instead of returning false as
the claim requires.  On the same filesystem the function does return
false for the ENOENT-missing path `g` and for the plain file `f`, and
it returns true on a marked repository directory, so only the
non-ENOENT stat-error case diverges. -/
theorem isGogoRepo_stat_error_eval :
    isGogoRepo (.cons (.file "f") .nil) ["f", "x"] = none ∧
    lookupPath (.cons (.file "f") .nil) ["f", "x"] = none ∧
    statPath (.cons (.file "f") .nil) ["f", "x"] = .enotdir ∧
    isGogoRepo (.cons (.file "f") .nil) ["g"] = some false ∧
    isGogoRepo (.cons (.file "f") .nil) ["f"] = some false ∧
    isGogoRepo (.cons (.dir "r" (.cons (.dir ".git" .nil) .nil)) .nil) ["r"] = some true := by
  refine ⟨rfl, rfl, rfl, rfl, rfl, rfl⟩

/-- C9: the embedded traversal is a total function on finite trees (it is
a terminating structural recursion), it visits at most as many nodes as
the tree has (pruning only removes nodes from the unvisited frontier),
and on a well-formed tree (distinct sibling names, as on a real
filesystem) no path is visited twice. -/
theorem walk_terminates_visits_once (base : List String) (n : FsNode) :
    (walkVisit base n).length ≤ n.size ∧ (n.wf = true → (walkVisit base n).Nodup) :=
  ⟨walkVisit_length.1 n base, fun h => walkVisit_nodup.1 n base h⟩

/-- Witness for C9 on the concrete scenario tree. -/
theorem walk_terminates_visits_once_witness : (walkVisit [] scenarioFs).Nodup :=
  (walk_terminates_visits_once [] scenarioFs).2 (by decide)

/-- C1: evaluation of the embedded code on the spec's end-to-end
scenario tree `root/github.com/{alice/proj1, bob/proj2}` with a nested
marked repo `proj1/vendor/lib`.  The catalog does contain exactly 2
repository entries, the nested `vendor/lib` directory is never visited,
and `Owners()` is exactly {alice, bob}; but `Sources()` is
{proj1, proj2} — not {github.com}, which appears in the `repo` field of
both entries instead — because `parsegoRepo` assigns
`source := parts[n-1]` (the deepest segment) and `repo := parts[n-3]`. -/
theorem scenario_walk_eval :
    (walkCatalog [] scenarioFs NewProjects).map
        (fun p => (p.repos.length, p.Sources, p.Owners, p.repos.map goRepo.repo)) =
      some (2, ["proj1", "proj2"], ["alice", "bob"], ["github.com", "github.com"]) ∧
    ["root", "github.com", "alice", "proj1", "vendor", "lib"] ∉ walkVisit [] scenarioFs ∧
    (walkCatalog [] scenarioFs NewProjects).map (fun p => p.Sources.contains "github.com") =
      some false := by
  refine ⟨by decide, by decide, by decide⟩

end Gpm
